import Mathlib

/-!
Verification of the Modelic model-lifecycle / drift-monitoring core against
its specification.

The repository's checked-in sources are the Next.js frontend (notably
`MLOPS/frontend/lib/utils.ts`) together with the TypeScript data-model
declarations for the backend (the `InferenceLog`, `BaselineStats`,
`DriftResult`, `DriftCheckAllResult`, ... interfaces quoted in
`MLOPS/REFACTORING_SUMMARY.md`).  The Python backend that implements the
Registry, Baseline Builder, Drift Engine and Scheduler is not among the
files, so those operations are modelled from the spec (each such definition
carries a doc comment starting `Modelled from the spec:`); the data shapes
they operate on are translated from the TypeScript declarations.

Numbers are embedded as rationals (`ℚ`); JavaScript floating point and the
transcendental parts of the drift metrics (logarithms, square roots) are
abstracted as parameters where a definition needs them.
-/

set_option linter.unusedVariables false
set_option linter.unreachableTactic false
set_option linter.unusedTactic false

namespace Modelic

/-! ## JSON values

The domain of JSON-serializable JavaScript values, used both by the
`formatJSON`/`isValidJSON` utilities of `frontend/lib/utils.ts` and as the
payload type of inference-log entries (`Record<string, any>` fields).
Numbers are restricted to integers: JavaScript float-to-string formatting
is floating-point behaviour outside a shallow embedding.  Values on which
`JSON.stringify` does not yield a string (`undefined`, functions, symbols)
are outside the domain; on every embedded value `JSON.stringify` succeeds. -/
inductive JsValue where
  | null
  | bool (b : Bool)
  | num (n : Int)
  | str (s : String)
  | arr (elems : List JsValue)
  | obj (members : List (String × JsValue))

/-! ### `JSON.stringify(v, null, 2)` — the printer behind `formatJSON`

`formatJSON` in `frontend/lib/utils.ts` calls `JSON.stringify(obj, null, 2)`,
which pretty-prints with two-space indentation.  The builtin is modelled
character by character: string escaping, decimal integers, `[]`/`{}` for
empty containers, and newline-plus-indent layout for the rest. -/

/-- The lower-case hex digit for `n < 16`. -/
def hexDig (n : Nat) : Char :=
  if n < 10 then Char.ofNat ('0'.toNat + n) else Char.ofNat ('a'.toNat + n - 10)

/-- One string character as `JSON.stringify` escapes it: quote, backslash
and the named control characters get two-character escapes, the remaining
control characters a `\u00XX` escape, and everything else stands for
itself. -/
def escChar (c : Char) : List Char :=
  if c = '"' then ['\\', '"']
  else if c = '\\' then ['\\', '\\']
  else if c = '\n' then ['\\', 'n']
  else if c = '\r' then ['\\', 'r']
  else if c = '\t' then ['\\', 't']
  else if c = Char.ofNat 8 then ['\\', 'b']
  else if c = Char.ofNat 12 then ['\\', 'f']
  else if c.toNat < 32 then
    ['\\', 'u', '0', '0', hexDig (c.toNat / 16), hexDig (c.toNat % 16)]
  else [c]

/-- A JSON string literal: the characters escaped, between quotes. -/
def strLit (s : String) : List Char :=
  '"' :: (s.toList.flatMap escChar ++ ['"'])

/-- The decimal digits of `n`, most significant first. -/
def natChars (n : Nat) : List Char :=
  if n < 10 then [Char.ofNat ('0'.toNat + n % 10)]
  else natChars (n / 10) ++ [Char.ofNat ('0'.toNat + n % 10)]
termination_by n
decreasing_by omega

/-- An integer in decimal: an optional minus sign, then digits. -/
def intChars (i : Int) : List Char :=
  if i < 0 then '-' :: natChars i.natAbs else natChars i.natAbs

/-- An indentation run of `n` spaces. -/
def pad (n : Nat) : List Char := List.replicate n ' '

mutual
/-- `JSON.stringify(v, null, 2)` as a character list, with the value's
container indented by `ind` spaces. -/
def jChars (ind : Nat) : JsValue → List Char
  | .null => "null".toList
  | .bool true => "true".toList
  | .bool false => "false".toList
  | .num i => intChars i
  | .str s => strLit s
  | .arr [] => ['[', ']']
  | .arr (v :: vs) =>
      '[' :: '\n' :: (arrItems (ind + 2) v vs ++ '\n' :: (pad ind ++ [']']))
  | .obj [] => ['{', '}']
  | .obj (m :: ms) =>
      '{' :: '\n' :: (objItems (ind + 2) m ms ++ '\n' :: (pad ind ++ ['}']))
termination_by v => sizeOf v
/-- The indented, comma-separated elements of a non-empty array. -/
def arrItems (ind : Nat) : JsValue → List JsValue → List Char
  | v, [] => pad ind ++ jChars ind v
  | v, w :: ws => (pad ind ++ jChars ind v) ++ ',' :: '\n' :: arrItems ind w ws
termination_by v l => sizeOf v + sizeOf l
/-- The indented, comma-separated `"key": value` members of a non-empty
object. -/
def objItems (ind : Nat) : String × JsValue → List (String × JsValue) → List Char
  | (k, v), [] => pad ind ++ (strLit k ++ ':' :: ' ' :: jChars ind v)
  | (k, v), m :: ms =>
      (pad ind ++ (strLit k ++ ':' :: ' ' :: jChars ind v))
        ++ ',' :: '\n' :: objItems ind m ms
termination_by m l => sizeOf m + sizeOf l
end

/-- `JSON.stringify(v, null, 2)` as a string. -/
def jsonStringify (v : JsValue) : String := String.mk (jChars 0 v)

/-- `formatJSON` from `frontend/lib/utils.ts`: `JSON.stringify(obj, null, 2)`
inside a try/catch whose catch branch returns `String(obj)`.  On the
embedded domain `JSON.stringify` always succeeds and yields a string (the
throwing inputs — cyclic structures, BigInt — and the `undefined` result
have no JSON-serializable value to embed), so the catch branch is
unreachable and `formatJSON` coincides with the stringifier. -/
def formatJSON (v : JsValue) : String := jsonStringify v

/-! ### `JSON.parse` — the acceptor behind `isValidJSON`

`isValidJSON` only observes whether `JSON.parse(str)` throws, so the
builtin is modelled as a total acceptor for the RFC 8259 grammar: each
piece consumes a prefix and returns the remaining input, or `Option.none`
for a syntax error.  The value parser recurses on explicit fuel;
`jsonParse` supplies more fuel than the input has characters. -/

/-- JSON whitespace. -/
def wsChar (c : Char) : Bool := c = ' ' || c = '\n' || c = '\t' || c = '\r'

/-- Drop leading JSON whitespace. -/
def dropWs : List Char → List Char
  | [] => []
  | c :: r => if wsChar c then dropWs r else c :: r

/-- A decimal digit. -/
def digCh (c : Char) : Bool := '0' ≤ c && c ≤ '9'

/-- Drop leading decimal digits. -/
def dropDigits : List Char → List Char
  | [] => []
  | c :: r => if digCh c then dropDigits r else c :: r

/-- A hexadecimal digit. -/
def hexCh (c : Char) : Bool :=
  digCh c || ('a' ≤ c && c ≤ 'f') || ('A' ≤ c && c ≤ 'F')

/-- The single-character escapes JSON allows after a backslash. -/
def simpleEsc (c : Char) : Bool :=
  c = '"' || c = '\\' || c = '/' || c = 'b' || c = 'f' || c = 'n' || c = 'r' || c = 't'

/-- Scan a string body, from just after the opening quote to just after
the closing quote.  Unescaped control characters, bad escapes and an
unterminated body are syntax errors, as in `JSON.parse`. -/
def scanStr : List Char → Option (List Char)
  | [] => Option.none
  | '"' :: r => some r
  | '\\' :: 'u' :: a :: b :: c :: d :: r =>
      if hexCh a && hexCh b && hexCh c && hexCh d then scanStr r else Option.none
  | '\\' :: e :: r => if simpleEsc e then scanStr r else Option.none
  | c :: r =>
      if 32 ≤ c.toNat ∧ c ≠ '"' ∧ c ≠ '\\' then scanStr r else Option.none

/-- The integer part of a JSON number: `0`, or a nonzero digit followed by
digits (JSON forbids redundant leading zeros). -/
def intTail : List Char → Option (List Char)
  | '0' :: r => some r
  | c :: r => if digCh c then some (dropDigits r) else Option.none
  | [] => Option.none

/-- At least one digit, then any further digits. -/
def someDigits : List Char → Option (List Char)
  | c :: r => if digCh c then some (dropDigits r) else Option.none
  | [] => Option.none

/-- An optional fraction part: `.` must be followed by at least one digit. -/
def fracPart : List Char → Option (List Char)
  | '.' :: r => someDigits r
  | r => some r

/-- An optional exponent part: `e`/`E`, an optional sign, then digits. -/
def expPart : List Char → Option (List Char)
  | 'e' :: '+' :: r => someDigits r
  | 'e' :: '-' :: r => someDigits r
  | 'e' :: r => someDigits r
  | 'E' :: '+' :: r => someDigits r
  | 'E' :: '-' :: r => someDigits r
  | 'E' :: r => someDigits r
  | r => some r

/-- A JSON number after the optional minus sign. -/
def numTail (cs : List Char) : Option (List Char) :=
  match intTail cs with
  | Option.none => Option.none
  | some r1 =>
    match fracPart r1 with
    | Option.none => Option.none
    | some r2 => expPart r2

/-- A JSON number. -/
def parseNum : List Char → Option (List Char)
  | '-' :: r => numTail r
  | r => numTail r

mutual
/-- Accept one JSON value (with leading whitespace), returning the rest. -/
def parseVal (fuel : Nat) (cs : List Char) : Option (List Char) :=
  match fuel with
  | 0 => Option.none
  | fuel + 1 =>
    match dropWs cs with
    | 'n' :: 'u' :: 'l' :: 'l' :: r => some r
    | 't' :: 'r' :: 'u' :: 'e' :: r => some r
    | 'f' :: 'a' :: 'l' :: 's' :: 'e' :: r => some r
    | '"' :: r => scanStr r
    | '[' :: r =>
        (match dropWs r with
         | ']' :: r2 => some r2
         | _ => parseItems fuel r)
    | '{' :: r =>
        (match dropWs r with
         | '}' :: r2 => some r2
         | _ => parseFields fuel r)
    | c :: r => if c = '-' ∨ digCh c then parseNum (c :: r) else Option.none
    | [] => Option.none
/-- Accept one or more comma-separated array elements and the closing `]`. -/
def parseItems (fuel : Nat) (cs : List Char) : Option (List Char) :=
  match fuel with
  | 0 => Option.none
  | fuel + 1 =>
    match parseVal fuel cs with
    | Option.none => Option.none
    | some r =>
      match dropWs r with
      | ',' :: r2 => parseItems fuel r2
      | ']' :: r2 => some r2
      | _ => Option.none
/-- Accept one or more comma-separated object members and the closing `}`. -/
def parseFields (fuel : Nat) (cs : List Char) : Option (List Char) :=
  match fuel with
  | 0 => Option.none
  | fuel + 1 =>
    match dropWs cs with
    | '"' :: r =>
      (match scanStr r with
       | Option.none => Option.none
       | some r1 =>
         match dropWs r1 with
         | ':' :: r2 =>
           (match parseVal fuel r2 with
            | Option.none => Option.none
            | some r3 =>
              match dropWs r3 with
              | ',' :: r4 => parseFields fuel r4
              | '}' :: r4 => some r4
              | _ => Option.none)
         | _ => Option.none)
    | _ => Option.none
end

/-- `JSON.parse` as an acceptor: the whole input must be one JSON value
with nothing but whitespace around it. -/
def jsonParse (s : String) : Option Unit :=
  match parseVal (s.toList.length + 1) s.toList with
  | Option.none => Option.none
  | some r => if dropWs r = [] then some () else Option.none

/-- `isValidJSON` from `frontend/lib/utils.ts`: `JSON.parse` inside a
try/catch — `true` exactly when parsing succeeds, `false` on a parse
failure.  The acceptor is a total function, so `isValidJSON` always
returns a boolean and never propagates an exception. -/
def isValidJSON (s : String) : Bool := (jsonParse s).isSome

/-- A remainder that cannot extend a JSON number: empty, or headed by a
character that is neither a digit nor `.`, `e` or `E`.  Every position a
printed value can occupy ends in such a remainder. -/
def numStop : List Char → Bool
  | [] => true
  | c :: _ => !(digCh c || c = '.' || c = 'e' || c = 'E')

/-! ### Round-trip lemmas: whitespace -/

theorem dropWs_of_head (c : Char) (x : List Char) (h : wsChar c = false) :
    dropWs (c :: x) = c :: x := by
  simp [dropWs, h]

theorem dropWs_all (ws : List Char) (hws : ∀ c ∈ ws, wsChar c = true)
    (y : List Char) : dropWs (ws ++ y) = dropWs y := by
  induction ws with
  | nil => rfl
  | cons c t ih =>
    have hc : wsChar c = true := hws c (by simp)
    simp only [List.cons_append, dropWs, hc, if_pos]
    exact ih (fun d hd => hws d (by simp [hd]))

theorem pad_ws (n : Nat) : ∀ c ∈ pad n, wsChar c = true := by
  intro c hc
  simp only [pad, List.mem_replicate] at hc
  simp [hc.2, wsChar]

theorem dropWs_pad (n : Nat) (y : List Char) : dropWs (pad n ++ y) = dropWs y :=
  dropWs_all (pad n) (pad_ws n) y

/-! ### Round-trip lemmas: digits and numbers -/

theorem digCh_of_lt (k : Nat) (h : k < 10) :
    digCh (Char.ofNat ('0'.toNat + k)) = true := by
  interval_cases k <;> decide

theorem digCh_zero_iff (k : Nat) (h : k < 10) :
    (Char.ofNat ('0'.toNat + k) = '0') ↔ k = 0 := by
  interval_cases k <;> simp <;> decide

theorem natChars_ne_nil (n : Nat) : natChars n ≠ [] := by
  rw [natChars]
  split <;> simp

theorem natChars_digits (n : Nat) : ∀ c ∈ natChars n, digCh c = true := by
  induction n using Nat.strongRecOn with
  | _ n ih =>
    rw [natChars]
    split
    · intro c hc
      rw [List.mem_singleton] at hc
      subst hc
      exact digCh_of_lt _ (Nat.mod_lt _ (by omega))
    · intro c hc
      rw [List.mem_append] at hc
      rcases hc with hc | hc
      · exact ih (n / 10) (by omega) c hc
      · rw [List.mem_singleton] at hc
        subst hc
        exact digCh_of_lt _ (Nat.mod_lt _ (by omega))

theorem natChars_head (n : Nat) (hn : n ≠ 0) :
    ∃ c t, natChars n = c :: t ∧ digCh c = true ∧ c ≠ '0' := by
  induction n using Nat.strongRecOn with
  | _ n ih =>
    rw [natChars]
    split
    · refine ⟨_, _, rfl, digCh_of_lt _ (Nat.mod_lt _ (by omega)), ?_⟩
      rw [Ne, digCh_zero_iff _ (Nat.mod_lt _ (by omega))]
      omega
    · obtain ⟨c, t, hct, hd, hz⟩ := ih (n / 10) (by omega) (by omega)
      exact ⟨c, t ++ [Char.ofNat ('0'.toNat + n % 10)], by rw [hct]; rfl, hd, hz⟩

theorem dropDigits_app (l : List Char) (hl : ∀ c ∈ l, digCh c = true)
    (y : List Char) : dropDigits (l ++ y) = dropDigits y := by
  induction l with
  | nil => rfl
  | cons c t ih =>
    have hc := hl c (by simp)
    simp only [List.cons_append, dropDigits, hc, if_pos]
    exact ih (fun d hd => hl d (by simp [hd]))

theorem numStop_head (c : Char) (t : List Char) (h : numStop (c :: t) = true) :
    digCh c = false ∧ c ≠ '.' ∧ c ≠ 'e' ∧ c ≠ 'E' := by
  simp only [numStop, Bool.not_eq_eq_eq_not, Bool.not_true, Bool.or_eq_false_iff,
    decide_eq_false_iff_not] at h
  exact ⟨h.1.1.1, h.1.1.2, h.1.2, h.2⟩

theorem dropDigits_stop (x : List Char) (h : numStop x = true) :
    dropDigits x = x := by
  cases x with
  | nil => rfl
  | cons c t => simp [dropDigits, (numStop_head c t h).1]

theorem fracPart_stop (x : List Char) (h : numStop x = true) :
    fracPart x = some x := by
  cases x with
  | nil => rfl
  | cons c t =>
    have hc := (numStop_head c t h).2.1
    rw [fracPart.eq_def]
    split
    · rename_i heq
      rw [List.cons.injEq] at heq
      exact absurd heq.1 hc
    · rfl

theorem expPart_stop (x : List Char) (h : numStop x = true) :
    expPart x = some x := by
  cases x with
  | nil => rfl
  | cons c t =>
    obtain ⟨-, -, he, hE⟩ := numStop_head c t h
    rw [expPart.eq_def]
    split
    · rename_i heq; rw [List.cons.injEq] at heq; exact absurd heq.1 he
    · rename_i heq; rw [List.cons.injEq] at heq; exact absurd heq.1 he
    · rename_i heq; rw [List.cons.injEq] at heq; exact absurd heq.1 he
    · rename_i heq; rw [List.cons.injEq] at heq; exact absurd heq.1 hE
    · rename_i heq; rw [List.cons.injEq] at heq; exact absurd heq.1 hE
    · rename_i heq; rw [List.cons.injEq] at heq; exact absurd heq.1 hE
    · rfl

theorem natChars_head_digit (n : Nat) :
    ∃ c t, natChars n = c :: t ∧ digCh c = true := by
  match h : natChars n with
  | [] => exact absurd h (natChars_ne_nil n)
  | c :: t =>
    exact ⟨c, t, rfl, natChars_digits n c (h ▸ List.mem_cons_self c t)⟩

theorem numTail_print (n : Nat) (x : List Char) (hx : numStop x = true) :
    numTail (natChars n ++ x) = some x := by
  have hint : intTail (natChars n ++ x) = some x := by
    by_cases hn : n = 0
    · subst hn
      have h0 : natChars 0 = ['0'] := by rw [natChars]; norm_num
      rw [h0]
      rfl
    · obtain ⟨c, t, hct, hd, hz⟩ := natChars_head n hn
      have htd : ∀ d ∈ t, digCh d = true := by
        intro d hd2
        exact natChars_digits n d (by rw [hct]; simp [hd2])
      rw [hct, List.cons_append, intTail.eq_def]
      split
      · rename_i heq
        rw [List.cons.injEq] at heq
        exact absurd heq.1 hz
      · rename_i c2 r heq
        rw [List.cons.injEq] at heq
        obtain ⟨rfl, rfl⟩ := heq
        rw [if_pos hd, dropDigits_app t htd x, dropDigits_stop x hx]
      · rename_i heq
        exact absurd heq (by simp)
  simp only [numTail, hint, fracPart_stop x hx, expPart_stop x hx]

theorem parseNum_print (i : Int) (x : List Char) (hx : numStop x = true) :
    parseNum (intChars i ++ x) = some x := by
  by_cases hi : i < 0
  · rw [intChars, if_pos hi, List.cons_append]
    rw [show parseNum ('-' :: (natChars i.natAbs ++ x))
        = numTail (natChars i.natAbs ++ x) from rfl]
    exact numTail_print _ x hx
  · rw [intChars, if_neg hi]
    obtain ⟨c, t, hct, hd⟩ := natChars_head_digit i.natAbs
    rw [hct, List.cons_append, parseNum.eq_def]
    split
    · rename_i heq
      rw [List.cons.injEq] at heq
      obtain ⟨rfl, -⟩ := heq
      exact absurd hd (by decide)
    · rw [← List.cons_append, ← hct]
      exact numTail_print _ x hx

/-! ### Round-trip lemmas: strings -/

theorem hexCh_hexDig (k : Nat) (h : k < 16) : hexCh (hexDig k) = true := by
  interval_cases k <;> decide

theorem scanStr_esc (c : Char) (x : List Char) :
    scanStr (escChar c ++ x) = scanStr x := by
  rw [escChar]
  split_ifs with h1 h2 h3 h4 h5 h6 h7 h8
  · subst h1; simp [scanStr, simpleEsc]
  · subst h2; simp [scanStr, simpleEsc]
  · subst h3; simp [scanStr, simpleEsc]
  · subst h4; simp [scanStr, simpleEsc]
  · subst h5; simp [scanStr, simpleEsc]
  · subst h6; simp [scanStr, simpleEsc]
  · subst h7; simp [scanStr, simpleEsc]
  · have ha : hexCh (hexDig (c.toNat / 16)) = true := hexCh_hexDig _ (by omega)
    have hb : hexCh (hexDig (c.toNat % 16)) = true :=
      hexCh_hexDig _ (Nat.mod_lt _ (by omega))
    have h0 : hexCh '0' = true := by decide
    simp [scanStr, h0, ha, hb]
  · rw [List.singleton_append, scanStr.eq_def]
    split
    · rename_i heq; cases heq
    · rename_i heq
      rw [List.cons.injEq] at heq
      exact absurd heq.1 h1
    · rename_i heq
      rw [List.cons.injEq] at heq
      exact absurd heq.1 h2
    · rename_i heq
      rw [List.cons.injEq] at heq
      exact absurd heq.1 h2
    · rename_i c2 r heq
      rw [List.cons.injEq] at heq
      obtain ⟨rfl, rfl⟩ := heq
      rw [if_pos ⟨by omega, h1, h2⟩]

theorem scanStr_lit (l : List Char) : ∀ x : List Char,
    scanStr (l.flatMap escChar ++ '"' :: x) = some x := by
  induction l with
  | nil => intro x; rfl
  | cons c t ih =>
    intro x
    rw [List.flatMap_cons, List.append_assoc, scanStr_esc]
    exact ih x

/-! ### Round-trip lemmas: the head of a printed value -/

theorem digCh_ne (c : Char) (h : digCh c = true) :
    ∀ d : Char, digCh d = false → c ≠ d := by
  intro d hd heq
  subst heq
  rw [h] at hd
  cases hd

theorem digCh_not_ws (c : Char) (h : digCh c = true) : wsChar c = false := by
  simp only [wsChar, Bool.or_eq_false_iff, decide_eq_false_iff_not]
  exact ⟨⟨⟨digCh_ne c h ' ' (by decide), digCh_ne c h '\n' (by decide)⟩,
    digCh_ne c h '\t' (by decide)⟩, digCh_ne c h '\r' (by decide)⟩

theorem jChars_head (ind : Nat) (v : JsValue) :
    ∃ c t, jChars ind v = c :: t ∧ wsChar c = false ∧ c ≠ ']' ∧ c ≠ '}' := by
  cases v with
  | null => exact ⟨'n', ['u', 'l', 'l'], by rw [jChars]; decide, by decide, by decide, by decide⟩
  | bool b =>
    cases b with
    | true => exact ⟨'t', ['r', 'u', 'e'], by rw [jChars]; decide, by decide, by decide, by decide⟩
    | false =>
      exact ⟨'f', ['a', 'l', 's', 'e'], by rw [jChars]; decide, by decide, by decide, by decide⟩
  | num i =>
    by_cases hi : i < 0
    · exact ⟨'-', natChars i.natAbs, by rw [jChars, intChars, if_pos hi],
        by decide, by decide, by decide⟩
    · obtain ⟨c, t, hct, hd⟩ := natChars_head_digit i.natAbs
      exact ⟨c, t, by rw [jChars, intChars, if_neg hi, hct], digCh_not_ws c hd,
        digCh_ne c hd ']' (by decide), digCh_ne c hd '}' (by decide)⟩
  | str s =>
    exact ⟨'"', s.toList.flatMap escChar ++ ['"'], by rw [jChars, strLit],
      by decide, by decide, by decide⟩
  | arr l =>
    cases l with
    | nil => exact ⟨'[', [']'], by rw [jChars], by decide, by decide, by decide⟩
    | cons v vs =>
      exact ⟨'[', _, by rw [jChars], by decide, by decide, by decide⟩
  | obj l =>
    cases l with
    | nil => exact ⟨'{', ['}'], by rw [jChars], by decide, by decide, by decide⟩
    | cons m ms =>
      exact ⟨'{', _, by rw [jChars], by decide, by decide, by decide⟩

/-! ### Round-trip lemmas: parser steps -/

theorem dropWs_idem (cs : List Char) : dropWs (dropWs cs) = dropWs cs := by
  induction cs with
  | nil => rfl
  | cons c t ih =>
    by_cases h : wsChar c = true
    · simp [dropWs, h, ih]
    · simp [dropWs, h]

theorem parseVal_dropWs (fuel : Nat) (cs : List Char) :
    parseVal (fuel + 1) cs = parseVal (fuel + 1) (dropWs cs) := by
  rw [parseVal.eq_def]
  conv_rhs => rw [parseVal.eq_def]
  simp only [dropWs_idem]

theorem parseVal_ws (fuel : Nat) (ws y : List Char)
    (hws : ∀ c ∈ ws, wsChar c = true) :
    parseVal (fuel + 1) (ws ++ y) = parseVal (fuel + 1) y := by
  rw [parseVal_dropWs fuel (ws ++ y), dropWs_all ws hws, ← parseVal_dropWs]

theorem parseVal_ws_cons (fuel : Nat) (c : Char) (h : wsChar c = true)
    (y : List Char) : parseVal (fuel + 1) (c :: y) = parseVal (fuel + 1) y := by
  rw [parseVal_dropWs fuel (c :: y),
    show dropWs (c :: y) = dropWs y from by simp [dropWs, h], ← parseVal_dropWs]

theorem dropWs_cons_ws (c : Char) (h : wsChar c = true) (y : List Char) :
    dropWs (c :: y) = dropWs y := by
  simp [dropWs, h]

theorem parseItems_succ (fuel : Nat) (cs : List Char) :
    parseItems (fuel + 1) cs =
      (match parseVal fuel cs with
       | Option.none => Option.none
       | some r =>
         match dropWs r with
         | ',' :: r2 => parseItems fuel r2
         | ']' :: r2 => some r2
         | _ => Option.none) := rfl

theorem parseFields_succ (fuel : Nat) (cs : List Char) :
    parseFields (fuel + 1) cs =
      (match dropWs cs with
       | '"' :: r =>
         (match scanStr r with
          | Option.none => Option.none
          | some r1 =>
            match dropWs r1 with
            | ':' :: r2 =>
              (match parseVal fuel r2 with
               | Option.none => Option.none
               | some r3 =>
                 match dropWs r3 with
                 | ',' :: r4 => parseFields fuel r4
                 | '}' :: r4 => some r4
                 | _ => Option.none)
            | _ => Option.none)
       | _ => Option.none) := rfl

theorem parseVal_succ_eq (fuel : Nat) (cs : List Char) :
    parseVal (fuel + 1) cs =
      (match dropWs cs with
       | 'n' :: 'u' :: 'l' :: 'l' :: r => some r
       | 't' :: 'r' :: 'u' :: 'e' :: r => some r
       | 'f' :: 'a' :: 'l' :: 's' :: 'e' :: r => some r
       | '"' :: r => scanStr r
       | '[' :: r =>
           (match dropWs r with
            | ']' :: r2 => some r2
            | _ => parseItems fuel r)
       | '{' :: r =>
           (match dropWs r with
            | '}' :: r2 => some r2
            | _ => parseFields fuel r)
       | c :: r => if c = '-' ∨ digCh c = true then parseNum (c :: r) else Option.none
       | [] => Option.none) := rfl

theorem parseVal_to_num (fuel : Nat) (c : Char) (t : List Char)
    (hws : wsChar c = false) (hn : c ≠ 'n') (ht : c ≠ 't') (hf : c ≠ 'f')
    (hq : c ≠ '"') (hlb : c ≠ '[') (hlc : c ≠ '{')
    (hnum : c = '-' ∨ digCh c = true) :
    parseVal (fuel + 1) (c :: t) = parseNum (c :: t) := by
  rw [parseVal_succ_eq, dropWs_of_head c t hws]
  split
  · rename_i heq; rw [List.cons.injEq] at heq; exact absurd heq.1 hn
  · rename_i heq; rw [List.cons.injEq] at heq; exact absurd heq.1 ht
  · rename_i heq; rw [List.cons.injEq] at heq; exact absurd heq.1 hf
  · rename_i heq; rw [List.cons.injEq] at heq; exact absurd heq.1 hq
  · rename_i heq; rw [List.cons.injEq] at heq; exact absurd heq.1 hlb
  · rename_i heq; rw [List.cons.injEq] at heq; exact absurd heq.1 hlc
  · rename_i c2 r heq
    rw [List.cons.injEq] at heq
    obtain ⟨rfl, rfl⟩ := heq
    rw [if_pos (by simpa using hnum)]
  · rename_i heq; cases heq

theorem parseVal_arr_go (fuel : Nat) (r : List Char) (c : Char) (t : List Char)
    (hdr : dropWs r = c :: t) (hc : c ≠ ']') :
    parseVal (fuel + 1) ('[' :: r) = parseItems fuel r := by
  have hstep : parseVal (fuel + 1) ('[' :: r) =
      (match dropWs r with
       | ']' :: r2 => some r2
       | _ => parseItems fuel r) := rfl
  rw [hstep, hdr]
  split
  · rename_i heq; rw [List.cons.injEq] at heq; exact absurd heq.1 hc
  · rfl

theorem parseVal_obj_go (fuel : Nat) (r : List Char) (c : Char) (t : List Char)
    (hdr : dropWs r = c :: t) (hc : c ≠ '}') :
    parseVal (fuel + 1) ('{' :: r) = parseFields fuel r := by
  have hstep : parseVal (fuel + 1) ('{' :: r) =
      (match dropWs r with
       | '}' :: r2 => some r2
       | _ => parseFields fuel r) := rfl
  rw [hstep, hdr]
  split
  · rename_i heq; rw [List.cons.injEq] at heq; exact absurd heq.1 hc
  · rfl

theorem numStop_cons_of (c : Char) (h1 : digCh c = false) (h2 : c ≠ '.')
    (h3 : c ≠ 'e') (h4 : c ≠ 'E') (y : List Char) : numStop (c :: y) = true := by
  simp [numStop, h1, h2, h3, h4]

theorem wsChar_cases (c : Char) (h : wsChar c = true) :
    c = ' ' ∨ c = '\n' ∨ c = '\t' ∨ c = '\r' := by
  simpa [wsChar, or_assoc] using h

theorem numStop_ws_close (ws : List Char) (hws : ∀ c ∈ ws, wsChar c = true)
    (b : Char) (hb1 : digCh b = false) (hb2 : b ≠ '.') (hb3 : b ≠ 'e')
    (hb4 : b ≠ 'E') (x : List Char) : numStop (ws ++ b :: x) = true := by
  cases ws with
  | nil => exact numStop_cons_of b hb1 hb2 hb3 hb4 x
  | cons c t =>
    rcases wsChar_cases c (hws c (by simp)) with rfl | rfl | rfl | rfl <;>
      exact numStop_cons_of _ (by decide) (by decide) (by decide) (by decide) _

theorem arrItems_shape (ind : Nat) (v : JsValue) (vs : List JsValue) :
    ∃ rest, arrItems ind v vs = pad ind ++ (jChars ind v ++ rest) := by
  cases vs with
  | nil => exact ⟨[], by rw [arrItems, List.append_nil]⟩
  | cons w ws =>
    exact ⟨',' :: '\n' :: arrItems ind w ws, by rw [arrItems, List.append_assoc]⟩

theorem objItems_shape (ind : Nat) (k : String) (v : JsValue)
    (ms : List (String × JsValue)) :
    ∃ rest, objItems ind (k, v) ms =
      pad ind ++ ('"' :: (k.toList.flatMap escChar
        ++ ('"' :: ':' :: ' ' :: (jChars ind v ++ rest)))) := by
  cases ms with
  | nil =>
    refine ⟨[], ?_⟩
    rw [objItems, strLit]
    simp [List.append_assoc]
  | cons m ms2 =>
    refine ⟨',' :: '\n' :: objItems ind m ms2, ?_⟩
    rw [objItems, strLit]
    simp [List.append_assoc]

theorem jChars_length_pos (ind : Nat) (v : JsValue) :
    1 ≤ (jChars ind v).length := by
  obtain ⟨c, t, hct, -, -, -⟩ := jChars_head ind v
  rw [hct]
  simp

theorem ws_lf : ∀ c ∈ ['\n'], wsChar c = true := by
  intro c hc
  rw [List.mem_singleton] at hc
  subst hc
  decide

theorem ws_sp : ∀ c ∈ [' '], wsChar c = true := by
  intro c hc
  rw [List.mem_singleton] at hc
  subst hc
  decide

theorem ws_lf_pad (n : Nat) : ∀ c ∈ '\n' :: pad n, wsChar c = true := by
  intro c hc
  rcases List.mem_cons.mp hc with rfl | hc2
  · decide
  · exact pad_ws n c hc2

/-! ### The codec round trip

By mutual induction over the value: parsing the pretty-printed output
always succeeds.  The fuel bounds mirror the printed lengths. -/

mutual

theorem rtVal : ∀ (v : JsValue) (ind fuel : Nat) (x : List Char),
    (jChars ind v).length < fuel → numStop x = true →
    parseVal fuel (jChars ind v ++ x) = some x
  | .null, ind, fuel, x, hf, hx => by
    cases fuel with
    | zero => exact absurd hf (Nat.not_lt_zero _)
    | succ f => rw [jChars]; rfl
  | .bool true, ind, fuel, x, hf, hx => by
    cases fuel with
    | zero => exact absurd hf (Nat.not_lt_zero _)
    | succ f => rw [jChars]; rfl
  | .bool false, ind, fuel, x, hf, hx => by
    cases fuel with
    | zero => exact absurd hf (Nat.not_lt_zero _)
    | succ f => rw [jChars]; rfl
  | .num i, ind, fuel, x, hf, hx => by
    cases fuel with
    | zero => exact absurd hf (Nat.not_lt_zero _)
    | succ f =>
      rw [jChars]
      by_cases hi : i < 0
      · rw [intChars, if_pos hi, List.cons_append,
          parseVal_to_num f '-' _ (by decide) (by decide) (by decide) (by decide)
            (by decide) (by decide) (by decide) (Or.inl rfl),
          show parseNum ('-' :: (natChars i.natAbs ++ x))
            = numTail (natChars i.natAbs ++ x) from rfl]
        exact numTail_print _ x hx
      · obtain ⟨c, t, hct, hd⟩ := natChars_head_digit i.natAbs
        rw [intChars, if_neg hi, hct, List.cons_append,
          parseVal_to_num f c _ (digCh_not_ws c hd) (digCh_ne c hd 'n' (by decide))
            (digCh_ne c hd 't' (by decide)) (digCh_ne c hd 'f' (by decide))
            (digCh_ne c hd '"' (by decide)) (digCh_ne c hd '[' (by decide))
            (digCh_ne c hd '{' (by decide)) (Or.inr hd),
          ← List.cons_append, ← hct,
          show natChars i.natAbs = intChars i from by rw [intChars, if_neg hi]]
        exact parseNum_print i x hx
  | .str s, ind, fuel, x, hf, hx => by
    cases fuel with
    | zero => exact absurd hf (Nat.not_lt_zero _)
    | succ f =>
      rw [jChars, strLit, List.cons_append, List.append_assoc,
        List.singleton_append,
        show parseVal (f + 1) ('"' :: (s.toList.flatMap escChar ++ '"' :: x))
          = scanStr (s.toList.flatMap escChar ++ '"' :: x) from rfl]
      exact scanStr_lit _ x
  | .arr [], ind, fuel, x, hf, hx => by
    cases fuel with
    | zero => exact absurd hf (Nat.not_lt_zero _)
    | succ f => rw [jChars]; rfl
  | .arr (v :: vs), ind, fuel, x, hf, hx => by
    cases fuel with
    | zero => exact absurd hf (Nat.not_lt_zero _)
    | succ f =>
      rw [jChars] at hf ⊢
      simp only [List.cons_append, List.append_assoc, List.nil_append,
        List.singleton_append]
      obtain ⟨rest, hrest⟩ := arrItems_shape (ind + 2) v vs
      obtain ⟨c, t, hct, hcws, hcrb, -⟩ := jChars_head (ind + 2) v
      have hdr2 : dropWs ('\n' :: (arrItems (ind + 2) v vs
          ++ '\n' :: (pad ind ++ ']' :: x)))
          = c :: (t ++ (rest ++ '\n' :: (pad ind ++ ']' :: x))) := by
        rw [dropWs_cons_ws '\n' (by decide), hrest]
        simp only [List.append_assoc]
        rw [dropWs_pad (ind + 2), hct]
        simp only [List.cons_append]
        rw [dropWs_of_head c _ hcws]
      rw [parseVal_arr_go f _ c _ hdr2 hcrb]
      have hfuel : (arrItems (ind + 2) v vs).length + 1 < f := by
        simp only [List.length_cons, List.length_append, pad,
          List.length_replicate, List.length_singleton] at hf
        omega
      exact rtItems v vs (ind + 2) f ['\n'] ('\n' :: pad ind) x ws_lf
        (ws_lf_pad ind) hfuel
  | .obj [], ind, fuel, x, hf, hx => by
    cases fuel with
    | zero => exact absurd hf (Nat.not_lt_zero _)
    | succ f => rw [jChars]; rfl
  | .obj ((k, v) :: ms), ind, fuel, x, hf, hx => by
    cases fuel with
    | zero => exact absurd hf (Nat.not_lt_zero _)
    | succ f =>
      rw [jChars] at hf ⊢
      simp only [List.cons_append, List.append_assoc, List.nil_append,
        List.singleton_append]
      obtain ⟨rest, hrest⟩ := objItems_shape (ind + 2) k v ms
      have hdr2 : dropWs ('\n' :: (objItems (ind + 2) (k, v) ms
          ++ '\n' :: (pad ind ++ '}' :: x)))
          = '"' :: ((k.toList.flatMap escChar
              ++ '"' :: ':' :: ' ' :: (jChars (ind + 2) v
                ++ (rest ++ '\n' :: (pad ind ++ '}' :: x))))) := by
        rw [dropWs_cons_ws '\n' (by decide), hrest]
        simp only [List.append_assoc, List.cons_append]
        rw [dropWs_pad (ind + 2), dropWs_of_head '"' _ (by decide)]
      rw [parseVal_obj_go f _ '"' _ hdr2 (by decide)]
      have hfuel : (objItems (ind + 2) (k, v) ms).length + 1 < f := by
        simp only [List.length_cons, List.length_append, pad,
          List.length_replicate, List.length_singleton] at hf
        omega
      exact rtFields (k, v) ms (ind + 2) f ['\n'] ('\n' :: pad ind) x ws_lf
        (ws_lf_pad ind) hfuel
termination_by v ind fuel x hf hx => sizeOf v

theorem rtItems : ∀ (v : JsValue) (vs : List JsValue) (ind fuel : Nat)
    (wsA wsB x : List Char),
    (∀ c ∈ wsA, wsChar c = true) → (∀ c ∈ wsB, wsChar c = true) →
    (arrItems ind v vs).length + 1 < fuel →
    parseItems fuel (wsA ++ (arrItems ind v vs ++ (wsB ++ ']' :: x))) = some x
  | v, [], ind, fuel, wsA, wsB, x, hA, hB, hf => by
    cases fuel with
    | zero => exact absurd hf (Nat.not_lt_zero _)
    | succ f =>
      rw [arrItems] at hf ⊢
      have hpos := jChars_length_pos ind v
      obtain ⟨f2, rfl⟩ : ∃ f2, f = f2 + 1 := by
        refine ⟨f - 1, ?_⟩
        simp only [List.length_append] at hf
        omega
      have hlen : (jChars ind v).length < f2 + 1 := by
        simp only [List.length_append] at hf
        omega
      have hstop : numStop (wsB ++ ']' :: x) = true :=
        numStop_ws_close wsB hB ']' (by decide) (by decide) (by decide)
          (by decide) x
      rw [parseItems_succ, parseVal_ws f2 wsA _ hA, List.append_assoc,
        parseVal_ws f2 (pad ind) _ (pad_ws ind),
        rtVal v ind (f2 + 1) (wsB ++ ']' :: x) hlen hstop]
      simp only [dropWs_all wsB hB, dropWs_of_head ']' x (by decide)]
  | v, w :: ws2, ind, fuel, wsA, wsB, x, hA, hB, hf => by
    cases fuel with
    | zero => exact absurd hf (Nat.not_lt_zero _)
    | succ f =>
      rw [arrItems] at hf ⊢
      have hpos := jChars_length_pos ind v
      obtain ⟨f2, rfl⟩ : ∃ f2, f = f2 + 1 := by
        refine ⟨f - 1, ?_⟩
        simp only [List.length_append, List.length_cons] at hf
        omega
      have hlen : (jChars ind v).length < f2 + 1 := by
        simp only [List.length_append, List.length_cons] at hf
        omega
      have hstop : numStop (',' :: ('\n' :: (arrItems ind w ws2
          ++ (wsB ++ ']' :: x)))) = true :=
        numStop_cons_of ',' (by decide) (by decide) (by decide) (by decide) _
      have hfuel : (arrItems ind w ws2).length + 1 < f2 + 1 := by
        simp only [List.length_append, List.length_cons] at hf
        omega
      rw [parseItems_succ, parseVal_ws f2 wsA _ hA]
      simp only [List.append_assoc, List.cons_append]
      rw [parseVal_ws f2 (pad ind) _ (pad_ws ind),
        rtVal v ind (f2 + 1)
          (',' :: ('\n' :: (arrItems ind w ws2 ++ (wsB ++ ']' :: x)))) hlen hstop]
      simp only [dropWs_of_head ',' _ (by decide)]
      exact rtItems w ws2 ind (f2 + 1) ['\n'] wsB x ws_lf hB hfuel
termination_by v vs ind fuel wsA wsB x hA hB hf => sizeOf v + sizeOf vs

theorem rtFields : ∀ (m : String × JsValue) (ms : List (String × JsValue))
    (ind fuel : Nat) (wsA wsB x : List Char),
    (∀ c ∈ wsA, wsChar c = true) → (∀ c ∈ wsB, wsChar c = true) →
    (objItems ind m ms).length + 1 < fuel →
    parseFields fuel (wsA ++ (objItems ind m ms ++ (wsB ++ '}' :: x))) = some x
  | (k, v), [], ind, fuel, wsA, wsB, x, hA, hB, hf => by
    cases fuel with
    | zero => exact absurd hf (Nat.not_lt_zero _)
    | succ f =>
      rw [objItems, strLit] at hf ⊢
      have hpos := jChars_length_pos ind v
      obtain ⟨f2, rfl⟩ : ∃ f2, f = f2 + 1 := by
        refine ⟨f - 1, ?_⟩
        simp only [List.length_append, List.length_cons] at hf
        omega
      have hlen : (jChars ind v).length < f2 + 1 := by
        simp only [List.length_append, List.length_cons] at hf
        omega
      have hstop : numStop (wsB ++ '}' :: x) = true :=
        numStop_ws_close wsB hB '}' (by decide) (by decide) (by decide)
          (by decide) x
      rw [parseFields_succ]
      simp only [List.append_assoc, List.cons_append, List.nil_append]
      rw [dropWs_all wsA hA, dropWs_pad ind, dropWs_of_head '"' _ (by decide)]
      simp only [scanStr_lit, dropWs_of_head ':' _ (by decide)]
      rw [parseVal_ws_cons f2 ' ' (by decide),
        rtVal v ind (f2 + 1) (wsB ++ '}' :: x) hlen hstop]
      simp only [dropWs_all wsB hB, dropWs_of_head '}' x (by decide)]
  | (k, v), m2 :: ms2, ind, fuel, wsA, wsB, x, hA, hB, hf => by
    cases fuel with
    | zero => exact absurd hf (Nat.not_lt_zero _)
    | succ f =>
      rw [objItems, strLit] at hf ⊢
      have hpos := jChars_length_pos ind v
      obtain ⟨f2, rfl⟩ : ∃ f2, f = f2 + 1 := by
        refine ⟨f - 1, ?_⟩
        simp only [List.length_append, List.length_cons] at hf
        omega
      have hlen : (jChars ind v).length < f2 + 1 := by
        simp only [List.length_append, List.length_cons] at hf
        omega
      have hstop : numStop (',' :: ('\n' :: (objItems ind m2 ms2
          ++ (wsB ++ '}' :: x)))) = true :=
        numStop_cons_of ',' (by decide) (by decide) (by decide) (by decide) _
      have hfuel : (objItems ind m2 ms2).length + 1 < f2 + 1 := by
        simp only [List.length_append, List.length_cons] at hf
        omega
      rw [parseFields_succ]
      simp only [List.append_assoc, List.cons_append, List.nil_append]
      rw [dropWs_all wsA hA, dropWs_pad ind, dropWs_of_head '"' _ (by decide)]
      simp only [scanStr_lit, dropWs_of_head ':' _ (by decide)]
      rw [parseVal_ws_cons f2 ' ' (by decide),
        rtVal v ind (f2 + 1) (',' :: ('\n' :: (objItems ind m2 ms2
          ++ (wsB ++ '}' :: x)))) hlen hstop]
      simp only [dropWs_of_head ',' _ (by decide)]
      exact rtFields m2 ms2 ind (f2 + 1) ['\n'] wsB x ws_lf hB hfuel
termination_by m ms ind fuel wsA wsB x hA hB hf => sizeOf m + sizeOf ms

end

/-! ## Data-model declarations

Translated from the TypeScript interfaces in the repository
(`REFACTORING_SUMMARY.md`, frontend type declarations). -/

/-- `status: 'success' | 'error' | 'timeout'` of an `InferenceLog`. -/
inductive LogStatus where
  | success
  | error
  | timeout
deriving DecidableEq, Repr

/-- `latency_category: 'fast' | 'medium' | 'slow' | 'very_slow'`. -/
inductive LatencyCategory where
  | fast
  | medium
  | slow
  | very_slow
deriving DecidableEq, Repr

/-- The `prediction_metadata` field of an `InferenceLog`. -/
structure PredictionMetadata where
  prediction_type : String
  has_confidence : Bool
  has_probabilities : Bool
  model_version : Option String
  prediction_shape : Nat

/-- The `InferenceLog` interface: one append-only log entry per inference
call.  TypeScript `Record<string, T>` maps are embedded as association
lists. -/
structure InferenceLog where
  id : String
  model_id : String
  input_data : List (String × JsValue)
  prediction : List (String × JsValue)
  latency_ms : ℚ
  status : LogStatus
  timestamp : String
  feature_count : Nat
  feature_names : List String
  feature_types : List (String × String)
  numerical_features : List (String × ℚ)
  categorical_features : List (String × String)
  prediction_metadata : PredictionMetadata
  error_message : Option String
  user_id : Option String
  prediction_confidence : Option ℚ
  model_version : Option String
  request_size_bytes : Nat
  response_size_bytes : Nat
  latency_category : LatencyCategory

/-- The `histogram` field of `NumericalFeatureStats`: bin counts together
with the persisted bin edges. -/
structure HistogramData where
  counts : List Nat
  bin_edges : List ℚ
deriving DecidableEq, Repr

/-- The `percentiles` field of `NumericalFeatureStats` (keys 25/75/90/95). -/
structure PercentileStats where
  p25 : ℚ
  p75 : ℚ
  p90 : ℚ
  p95 : ℚ
deriving DecidableEq, Repr

/-- The `NumericalFeatureStats` interface (discriminant `type: 'numerical'`). -/
structure NumericalFeatureStats where
  count : Nat
  mean : ℚ
  std : ℚ
  min : ℚ
  max : ℚ
  median : ℚ
  percentiles : PercentileStats
  missing_count : Nat
  histogram : HistogramData
deriving DecidableEq, Repr

/-- The `CategoricalFeatureStats` interface (discriminant `type: 'categorical'`). -/
structure CategoricalFeatureStats where
  count : Nat
  unique_count : Nat
  most_common : List (String × Nat)
  value_distribution : List (String × Nat)
  missing_count : Nat
deriving DecidableEq, Repr

/-- The `ComplexFeatureStats` interface (discriminant `type: 'complex'`):
the third variant the declarations admit for a baseline feature entry. -/
structure ComplexFeatureStats where
  count : Nat
  sample_value : String
deriving DecidableEq, Repr

/-- A per-feature baseline entry: the TypeScript union
`NumericalFeatureStats | CategoricalFeatureStats | ComplexFeatureStats`
used as the value type of `BaselineStats.feature_stats`. -/
inductive FeatureStats where
  | numerical (s : NumericalFeatureStats)
  | categorical (s : CategoricalFeatureStats)
  | complex (s : ComplexFeatureStats)
deriving DecidableEq, Repr

/-- The TypeScript discriminant (`type` field) of a baseline feature entry. -/
def FeatureStats.tag : FeatureStats → String
  | .numerical _ => "numerical"
  | .categorical _ => "categorical"
  | .complex _ => "complex"

/-- The `_metadata` entry of `BaselineStats.feature_stats`. -/
structure BaselineMetadata where
  total_samples : Nat
  total_features : Nat
  numerical_features : List String
  categorical_features : List String
  calculated_at : String
deriving DecidableEq, Repr

/-- The `BaselineStats` interface.  The `feature_stats` record maps feature
names to per-feature entries; its distinguished `_metadata` key is embedded
as a separate field. -/
structure BaselineStats where
  model_id : String
  feature_stats : List (String × FeatureStats)
  metadata : BaselineMetadata
  data_source : String
  created_at : String
  sample_count : Nat
  feature_count : Nat
  numerical_feature_count : Nat
  categorical_feature_count : Nat
deriving DecidableEq, Repr

/-- `severity: 'none' | 'low' | 'moderate' | 'high'` of a drift result. -/
inductive DriftSeverity where
  | none
  | low
  | moderate
  | high
deriving DecidableEq, Repr

/-- The `DriftResult` interface: the per-feature outcome of a drift check.
The `additional_metrics` record is omitted (auxiliary, `Record<string, any>`). -/
structure DriftResult where
  feature_name : String
  feature_type : String
  drift_score : ℚ
  threshold : ℚ
  drift_detected : Bool
  severity : DriftSeverity
  baseline_samples : Nat
  current_samples : Nat
deriving DecidableEq, Repr

/-- The `summary_statistics` field of a `DriftReport`. -/
structure DriftReportSummary where
  total_features : Nat
  drifted_features : Nat
  average_drift_score : ℚ
  highest_drift_score : ℚ
  most_drifted_feature : Option String
deriving DecidableEq, Repr

/-- The `DriftReport` interface. -/
structure DriftReport where
  model_id : String
  timestamp : String
  overall_drift_detected : Bool
  overall_severity : DriftSeverity
  feature_drift_results : List DriftResult
  summary_statistics : DriftReportSummary
  baseline_period : String
  current_period : String
deriving DecidableEq, Repr

/-- `status: 'validating' | 'deployed' | 'failed' | 'pending'` of a `Model`. -/
inductive ModelStatus where
  | pending
  | validating
  | deployed
  | failed
deriving DecidableEq, Repr

/-- The `DriftCheckAllResult` interface: the batch summary of `check_all`.
Its `results: Record<string, any>` is embedded as a per-model success flag. -/
structure DriftCheckAllResult where
  check_triggered : Bool
  models_checked : Nat
  successful_checks : Nat
  failed_checks : Nat
  results : List (String × Bool)
  status : String

/-! ## `frontend/lib/utils.ts`: `truncateText`

JavaScript strings are embedded as lists of characters (`text.length` and
`substring` count the same units the list does). -/

/-- `truncateText` from `frontend/lib/utils.ts`: returns `text` unchanged
when it fits in `maxLength`, otherwise its first `maxLength` characters
followed by the literal suffix `...`. -/
def truncateText (text : List Char) (maxLength : Nat := 100) : List Char :=
  if text.length ≤ maxLength then text
  else text.take maxLength ++ ['.', '.', '.']

/-! ## Drift Engine: severity policy -/

/-- Modelled from the spec: the Drift Engine's severity banding, applied
uniformly to either metric against its configured threshold `T`
(the Python engine is not among the repository files):
`score < T` gives `none`, `T ≤ score < 1.5T` gives `low`,
`1.5T ≤ score < 2T` gives `moderate`, `score ≥ 2T` gives `high`. -/
def classifySeverity (score T : ℚ) : DriftSeverity :=
  if score < T then .none
  else if score < 3 / 2 * T then .low
  else if score < 2 * T then .moderate
  else .high

/-- Whether a severity level counts as detected drift (everything but `none`). -/
def severityDetected : DriftSeverity → Bool
  | .none => false
  | _ => true

/-- Modelled from the spec: a per-feature `DriftResult` is assembled from the
feature's drift score and configured threshold; `severity` comes from the
banding policy and `drift_detected` is true exactly off `none`. -/
def mkDriftResult (name ftype : String) (score T : ℚ) (bs cs : Nat) : DriftResult :=
  { feature_name := name
    feature_type := ftype
    drift_score := score
    threshold := T
    drift_detected := severityDetected (classifySeverity score T)
    severity := classifySeverity score T
    baseline_samples := bs
    current_samples := cs }

/-! ## Drift Engine: `check_model` -/

/-- The outcome of a drift check: either the distinguished `no_data`
result or a full drift report (`DriftCheckResult | no_data` in the spec's
manual-trigger interface; `drift_status: 'no_data' | 'available'` in the
declarations). -/
inductive DriftCheckOutcome where
  | noData
  | report (r : DriftReport)

/-- The spec's default minimum sample threshold for a drift check. -/
def minSampleThreshold : Nat := 30

/-- Rank used to take the maximum over per-feature severities. -/
def severityRank : DriftSeverity → Nat
  | .none => 0
  | .low => 1
  | .moderate => 2
  | .high => 3

/-- The larger of two severities (by `severityRank`). -/
def severityMax (a b : DriftSeverity) : DriftSeverity :=
  if severityRank a ≤ severityRank b then b else a

/-- Modelled from the spec: the Drift Report the engine assembles over the
features present in both the baseline and the current window.  The metric
value of each feature is abstracted as `scoreOf` (PSI / KL divergence use
floating-point logarithms, outside a shallow embedding). -/
def buildDriftReport (bl : BaselineStats) (logs : List InferenceLog)
    (scoreOf : String → ℚ) (T : ℚ) : DriftReport :=
  let currentNames := logs.flatMap (fun l => l.input_data.map Prod.fst)
  let features := bl.feature_stats.filter (fun kv => currentNames.contains kv.1)
  let results := features.map
    (fun kv => mkDriftResult kv.1 kv.2.tag (scoreOf kv.1) T bl.sample_count logs.length)
  { model_id := bl.model_id
    timestamp := ""
    overall_drift_detected := results.any (fun r => r.drift_detected)
    overall_severity := results.foldl (fun acc r => severityMax acc r.severity) .none
    feature_drift_results := results
    summary_statistics :=
      { total_features := results.length
        drifted_features := (results.filter (fun r => r.drift_detected)).length
        average_drift_score := (results.map (fun r => r.drift_score)).sum / results.length
        highest_drift_score := (results.map (fun r => r.drift_score)).foldl max 0
        most_drifted_feature := Option.none }
    baseline_period := bl.created_at
    current_period := "" }

/-- Modelled from the spec: `check_model`.  With no computed baseline, or
with fewer current-window samples than the minimum threshold, the engine
returns the distinguished `no_data` outcome (a valid non-error result, not
a raised error — the function is total); otherwise it builds a report. -/
def checkModel (baseline : Option BaselineStats) (logs : List InferenceLog)
    (scoreOf : String → ℚ) (T : ℚ) (minSamples : Nat := minSampleThreshold) :
    DriftCheckOutcome :=
  match baseline with
  | .none => .noData
  | .some bl =>
    if logs.length < minSamples then .noData
    else .report (buildDriftReport bl logs scoreOf T)

/-! ## Model Registry: the status state machine -/

/-- Modelled from the spec: the Registry's allowed-transition table.
`pending → validating` on validator start, `validating → deployed` on pass,
`validating → failed` on failure, `deployed → validating` on re-validation
of a new pushed version, and `failed → validating` for the new validating
cycle the spec requires before a failed model can ever be deployed again.
Everything else — in particular `failed → deployed` — is refused. -/
def allowedTransition : ModelStatus → ModelStatus → Bool
  | .pending, .validating => true
  | .validating, .deployed => true
  | .validating, .failed => true
  | .deployed, .validating => true
  | .failed, .validating => true
  | _, _ => false

/-- A reachable sequence of Registry statuses for one model: every adjacent
pair is an allowed transition. -/
def validTrace : List ModelStatus → Bool
  | [] => true
  | [_] => true
  | a :: b :: t => allowedTransition a b && validTrace (b :: t)

/-! ## Scheduler: `check_all` -/

/-- Modelled from the spec: the scheduler's batch fan-out.  Each model's
check result is an `Except` (an exception raised while checking that model,
e.g. a corrupted baseline, is its `error` case); the fold records every
per-model failure in the counts and never aborts, so `checkAll` itself is
total — the batch call cannot raise. -/
def checkAll (runCheck : String → Except String DriftCheckOutcome)
    (models : List String) : DriftCheckAllResult :=
  { check_triggered := true
    models_checked := models.length
    successful_checks := models.countP (fun m => (runCheck m).isOk)
    failed_checks := models.countP (fun m => !(runCheck m).isOk)
    results := models.map (fun m => (m, (runCheck m).isOk))
    status := "completed" }

/-! ## Baseline Builder: numerical feature statistics -/

/-- The spec's fixed number of equal-width histogram bins. -/
def histogramBinCount : Nat := 10

/-- Values sorted ascending (for percentiles and min/max). -/
def sortedVals (xs : List ℚ) : List ℚ :=
  xs.mergeSort (fun a b => a ≤ b)

/-- Modelled from the spec: percentile `p` (0–100) of the sorted values `s`
by linear interpolation over sorted values (position `p/100·(n−1)`). -/
def percentileOf (s : List ℚ) (p : ℚ) : ℚ :=
  if s.length = 0 then 0
  else
    let pos : ℚ := p / 100 * ((s.length : ℚ) - 1)
    let k : Nat := pos.floor.toNat
    let f : ℚ := pos - (k : ℚ)
    s.getD k 0 + f * (s.getD (k + 1) 0 - s.getD k 0)

/-- The bin a value falls into: 10 equal-width bins spanning `lo`/`hi`,
with the last bin closed on the right (index clamped to 9). -/
def binIdx (lo hi x : ℚ) : Nat :=
  Nat.min 9 (((x - lo) * 10 / (hi - lo)).floor.toNat)

/-- Modelled from the spec: the per-feature histogram with a fixed number
(10) of equal-width bins spanning the observed min/max; both the bin edges
and the bin counts are persisted. -/
def buildHistogram (lo hi : ℚ) (xs : List ℚ) : HistogramData :=
  { counts := (List.range histogramBinCount).map
      (fun j => xs.countP (fun x => binIdx lo hi x == j))
    bin_edges := (List.range (histogramBinCount + 1)).map
      (fun (i : Nat) => lo + (i : ℚ) * (hi - lo) / 10) }

/-- Modelled from the spec: the Baseline Builder's numerical feature entry.
Missing values (`Option.none` in the raw column) are counted but excluded
from the aggregates.  The square root used for `std` is abstracted as
`sqrtFn` (floating point in the original). -/
def buildNumericalStats (sqrtFn : ℚ → ℚ) (raw : List (Option ℚ)) :
    NumericalFeatureStats :=
  let xs := raw.filterMap id
  let s := sortedVals xs
  let n := xs.length
  let lo := s.getD 0 0
  let hi := s.getD (n - 1) 0
  let mean := xs.sum / (n : ℚ)
  let variance := ((xs.map (fun x => (x - mean) ^ 2)).sum) / (n : ℚ)
  { count := n
    mean := mean
    std := sqrtFn variance
    min := lo
    max := hi
    median := percentileOf s 50
    percentiles :=
      { p25 := percentileOf s 25
        p75 := percentileOf s 75
        p90 := percentileOf s 90
        p95 := percentileOf s 95 }
    missing_count := raw.length - n
    histogram := buildHistogram lo hi xs }

/-! ## Inference log store -/

/-- Modelled from the spec: the log store is append-only — recording an
inference appends one entry and never rewrites an existing one. -/
def appendLog (store : List InferenceLog) (entry : InferenceLog) :
    List InferenceLog :=
  store ++ [entry]

/-! ## Concrete sample values used by witnesses -/

/-- A baseline whose one feature entry is the declared `complex` variant. -/
def complexBaselineSample : BaselineStats :=
  { model_id := "model_1"
    feature_stats :=
      [("payload", FeatureStats.complex { count := 3, sample_value := "nested" })]
    metadata :=
      { total_samples := 3
        total_features := 1
        numerical_features := []
        categorical_features := []
        calculated_at := "" }
    data_source := "reference"
    created_at := ""
    sample_count := 3
    feature_count := 1
    numerical_feature_count := 0
    categorical_feature_count := 0 }

/-- A baseline with no feature entries, for exercising `checkModel`. -/
def emptyBaseline : BaselineStats :=
  { model_id := "model_2"
    feature_stats := []
    metadata :=
      { total_samples := 0
        total_features := 0
        numerical_features := []
        categorical_features := []
        calculated_at := "" }
    data_source := "reference"
    created_at := ""
    sample_count := 0
    feature_count := 0
    numerical_feature_count := 0
    categorical_feature_count := 0 }

/-- A concrete inference-log entry. -/
def sampleLog : InferenceLog :=
  { id := "log_1"
    model_id := "model_1"
    input_data := [("age", JsValue.num 35)]
    prediction := [("prediction", JsValue.num 1)]
    latency_ms := 12
    status := .success
    timestamp := ""
    feature_count := 1
    feature_names := ["age"]
    feature_types := [("age", "numerical")]
    numerical_features := [("age", 35)]
    categorical_features := []
    prediction_metadata :=
      { prediction_type := "single"
        has_confidence := false
        has_probabilities := false
        model_version := Option.none
        prediction_shape := 1 }
    error_message := Option.none
    user_id := Option.none
    prediction_confidence := Option.none
    model_version := Option.none
    request_size_bytes := 64
    response_size_bytes := 32
    latency_category := .fast }

/-- A per-model check where exactly `model_2` raises (corrupted baseline). -/
def sampleRunCheck (m : String) : Except String DriftCheckOutcome :=
  if m = "model_2" then .error "corrupted baseline" else .ok .noData

/-! ## C8: `formatJSON` / `isValidJSON` round trip -/

/-- C8: for every value on which `JSON.stringify` succeeds and yields a
string (every embedded value), `isValidJSON (formatJSON v)` returns `true`;
and for every input string `isValidJSON` returns a boolean without raising
— the acceptor is total, and a parse failure yields `false`. -/
theorem formatJSON_isValidJSON (v : JsValue) :
    isValidJSON (formatJSON v) = true ∧
    ∀ t : String, jsonParse t = Option.none → isValidJSON t = false := by
  constructor
  · have h1 : parseVal ((jChars 0 v).length + 1) (jChars 0 v ++ []) = some [] :=
      rtVal v 0 ((jChars 0 v).length + 1) [] (by omega) rfl
    rw [List.append_nil] at h1
    simp only [isValidJSON, jsonParse, formatJSON, jsonStringify, String.toList]
    rw [h1]
    rfl
  · intro t ht
    simp [isValidJSON, ht]

/-- `isValidJSON` accepts a concrete handwritten document and rejects a
malformed one (parenthesis-free sanity checks of the acceptor). -/
theorem isValidJSON_samples :
    isValidJSON " [1, true, null, \"a\\n\", -2.5e3] " = true ∧
    isValidJSON "[1, " = false := by decide

/-! ## C9: `truncateText` -/

/-- C9: for every string and every `maxLength`, `truncateText` returns the
string unchanged when it is not longer than `maxLength`, and otherwise the
first `maxLength` characters followed by `...`; the result is never longer
than `maxLength + 3`, and the function is idempotent on strings not longer
than `maxLength`. -/
theorem truncateText_spec (text : List Char) (maxLength : Nat) :
    (text.length ≤ maxLength → truncateText text maxLength = text) ∧
    (maxLength < text.length →
      truncateText text maxLength = text.take maxLength ++ ['.', '.', '.']) ∧
    (truncateText text maxLength).length ≤ maxLength + 3 ∧
    (text.length ≤ maxLength →
      truncateText (truncateText text maxLength) maxLength =
        truncateText text maxLength) := by
  refine ⟨fun hc => by simp [truncateText, hc], fun hc => by
    simp [truncateText, Nat.not_le.mpr hc], ?_, fun hc => by simp [truncateText, hc]⟩
  by_cases h : text.length ≤ maxLength
  · simp only [truncateText, if_pos h]
    omega
  · simp only [truncateText, if_neg h, List.length_append, List.length_take,
      List.length_cons, List.length_nil]
    omega

/-! ## C1: baseline feature-entry tags -/

/-- C1 (counterexample): the claim that every baseline per-feature entry is
tagged `numerical` or `categorical` fails on the declared data model — the
`feature_stats` union of `BaselineStats` admits a third variant, tagged
`complex`, exhibited by `complexBaselineSample`. -/
theorem baseline_two_tags_cex :
    ¬ ∀ b : BaselineStats, ∀ kv ∈ b.feature_stats,
        kv.2.tag = "numerical" ∨ kv.2.tag = "categorical" := by
  intro h
  have hm := h complexBaselineSample
    ("payload", FeatureStats.complex { count := 3, sample_value := "nested" })
    (by simp [complexBaselineSample])
  simp [FeatureStats.tag] at hm

/-- C1 (amended): every per-feature entry of a model's Baseline Stats is
tagged `numerical`, `categorical` or `complex` — the three variants the
declarations admit — and no entry carries any fourth tag. -/
theorem baseline_tag_classes (b : BaselineStats) :
    ∀ kv ∈ b.feature_stats,
      kv.2.tag = "numerical" ∨ kv.2.tag = "categorical" ∨ kv.2.tag = "complex" := by
  intro kv _
  cases h : kv.2 <;> simp [FeatureStats.tag]

/-- Witness for `baseline_tag_classes` at the concrete baseline. -/
theorem baseline_tag_classes_check :
    ("payload", FeatureStats.complex { count := 3, sample_value := "nested" }).2.tag
        = "numerical" ∨
      ("payload", FeatureStats.complex { count := 3, sample_value := "nested" }).2.tag
        = "categorical" ∨
      ("payload", FeatureStats.complex { count := 3, sample_value := "nested" }).2.tag
        = "complex" :=
  baseline_tag_classes complexBaselineSample
    ("payload", FeatureStats.complex { count := 3, sample_value := "nested" })
    (by simp [complexBaselineSample])

/-! ## C2: severity bands -/

/-- C2: against a configured threshold `T > 0`, severity is `none` exactly
when the score is below `T`, `low` on `[T, 1.5T)`, `moderate` on
`[1.5T, 2T)` and `high` from `2T` up; and a drift result's
`drift_detected` is true exactly when its severity is not `none`. -/
theorem drift_severity_policy (name ftype : String) (bs cs : Nat) (s T : ℚ)
    (hT : 0 < T) :
    (classifySeverity s T = .none ↔ s < T) ∧
    (classifySeverity s T = .low ↔ T ≤ s ∧ s < 3 / 2 * T) ∧
    (classifySeverity s T = .moderate ↔ 3 / 2 * T ≤ s ∧ s < 2 * T) ∧
    (classifySeverity s T = .high ↔ 2 * T ≤ s) ∧
    ((mkDriftResult name ftype s T bs cs).drift_detected = true ↔
      (mkDriftResult name ftype s T bs cs).severity ≠ .none) := by
  have h32 : T < 3 / 2 * T := by linarith
  have h23 : 3 / 2 * T < 2 * T := by linarith
  simp only [mkDriftResult, classifySeverity]
  split_ifs with h1 h2 h3 <;>
    refine ⟨?_, ?_, ?_, ?_, ?_⟩ <;>
      simp_all [severityDetected] <;>
        first
          | linarith
          | (constructor <;> linarith)
          | (intro hx; linarith)
          | (intro hx hy; linarith)

/-- Witness for `drift_severity_policy` at score 2 against threshold 1. -/
theorem drift_severity_policy_check :
    classifySeverity 2 1 = .high ↔ 2 * (1 : ℚ) ≤ 2 :=
  (drift_severity_policy "age" "numerical" 100 50 2 1 zero_lt_one).2.2.2.1

/-! ## C3: `check_model` below the sample threshold -/

/-- C3: when the current window has fewer samples than the minimum
threshold (default 30), `check_model` returns the distinguished `no_data`
outcome and never a Drift Report; the function is total, so this is a
returned value, not a raised error. -/
theorem checkModel_noData (baseline : Option BaselineStats)
    (logs : List InferenceLog) (scoreOf : String → ℚ) (T : ℚ)
    (minSamples : Nat) (h : logs.length < minSamples) :
    minSampleThreshold = 30 ∧
    checkModel baseline logs scoreOf T minSamples = .noData ∧
    ∀ r : DriftReport, checkModel baseline logs scoreOf T minSamples ≠ .report r := by
  refine ⟨rfl, ?_, ?_⟩
  · cases baseline with
    | none => rfl
    | some bl => simp [checkModel, if_pos h]
  · intro r
    cases baseline with
    | none => simp [checkModel]
    | some bl => simp [checkModel, if_pos h]

/-- Witness for `checkModel_noData`: an empty current window. -/
theorem checkModel_noData_check :
    minSampleThreshold = 30 ∧
    checkModel (some emptyBaseline) [] (fun _ => 0) (1 / 5) 30 = .noData ∧
    ∀ r : DriftReport,
      checkModel (some emptyBaseline) [] (fun _ => 0) (1 / 5) 30 ≠ .report r :=
  checkModel_noData (some emptyBaseline) [] (fun _ => 0) (1 / 5) 30 (by decide)

/-! ## C4: no `failed → deployed` shortcut -/

/-- Every adjacent pair of a valid trace is an allowed transition. -/
theorem validTrace_step : ∀ tr : List ModelStatus, validTrace tr = true →
    ∀ m, m + 1 < tr.length →
      allowedTransition (tr.getD m .pending) (tr.getD (m + 1) .pending) = true := by
  intro tr
  induction tr with
  | nil => intro _ m hm; simp at hm
  | cons a t ih =>
    intro h m hm
    cases t with
    | nil => simp at hm
    | cons b t2 =>
      have hsplit : allowedTransition a b = true ∧ validTrace (b :: t2) = true := by
        simpa [validTrace] using h
      cases m with
      | zero => simpa using hsplit.1
      | succ m2 =>
        have := ih hsplit.2 m2 (by simpa using hm)
        simpa using this

/-- C4: in every reachable sequence of Registry statuses, `failed` never
steps directly to `deployed` (the transition table refuses it), and a
`deployed` status occurring after a `failed` one is always preceded by an
intervening `validating` status. -/
theorem failed_requires_validating_cycle (tr : List ModelStatus) (i j : Nat)
    (hv : validTrace tr = true) (hj : j < tr.length) (hij : i < j)
    (hfi : tr.getD i .pending = .failed) (hdj : tr.getD j .pending = .deployed) :
    allowedTransition .failed .deployed = false ∧
    ∃ k, i < k ∧ k < j ∧ tr.getD k .pending = .validating := by
  refine ⟨rfl, ?_⟩
  obtain ⟨p, rfl⟩ : ∃ p, j = p + 1 := ⟨j - 1, by omega⟩
  have hstep := validTrace_step tr hv p hj
  have hval : tr.getD p .pending = .validating := by
    cases hpv : tr.getD p .pending with
    | validating => rfl
    | pending => rw [hpv, hdj] at hstep; exact absurd hstep (by decide)
    | deployed => rw [hpv, hdj] at hstep; exact absurd hstep (by decide)
    | failed => rw [hpv, hdj] at hstep; exact absurd hstep (by decide)
  have hne : i ≠ p := by
    intro he
    rw [he, hval] at hfi
    exact absurd hfi (by decide)
  exact ⟨p, by omega, by omega, hval⟩

/-- Witness for `failed_requires_validating_cycle` on the concrete trace
`failed → validating → deployed`. -/
theorem failed_requires_validating_cycle_check :
    allowedTransition .failed .deployed = false ∧
    ∃ k, 0 < k ∧ k < 2 ∧
      [ModelStatus.failed, .validating, .deployed].getD k .pending = .validating :=
  failed_requires_validating_cycle [ModelStatus.failed, .validating, .deployed] 0 2
    (by decide) (by decide) (by decide) (by decide) (by decide)

/-! ## C5: batch `check_all` isolates per-model failures -/

/-- Counting a predicate and its negation over a list covers the list. -/
theorem countP_split {α : Type} (p : α → Bool) (l : List α) :
    l.countP p + l.countP (fun a => !(p a)) = l.length := by
  induction l with
  | nil => simp
  | cons a t ih =>
    by_cases h : p a <;> simp [List.countP_cons, h] <;> omega

/-- C5: a batch `check_all` over `N` models in which exactly one per-model
check fails reports `successful_checks = N − 1` and `failed_checks = 1`;
`checkAll` is a total function (the batch itself cannot raise) and always
reports the per-model counts. -/
theorem checkAll_counts (runCheck : String → Except String DriftCheckOutcome)
    (models : List String)
    (h : models.countP (fun m => !(runCheck m).isOk) = 1) :
    (checkAll runCheck models).successful_checks = models.length - 1 ∧
    (checkAll runCheck models).failed_checks = 1 ∧
    (checkAll runCheck models).models_checked = models.length := by
  have hs := countP_split (fun m => (runCheck m).isOk) models
  refine ⟨?_, ?_, rfl⟩
  · simp only [checkAll]
    omega
  · simpa only [checkAll] using h

/-- Witness for `checkAll_counts`: three deployed models, one corrupted. -/
theorem checkAll_counts_check :
    (checkAll sampleRunCheck ["model_1", "model_2", "model_3"]).successful_checks = 2 ∧
    (checkAll sampleRunCheck ["model_1", "model_2", "model_3"]).failed_checks = 1 ∧
    (checkAll sampleRunCheck ["model_1", "model_2", "model_3"]).models_checked = 3 :=
  checkAll_counts sampleRunCheck ["model_1", "model_2", "model_3"] (by decide)

/-! ## C6: the shape of a numerical baseline entry -/

/-- The indicator sum over `range n` is zero when `k` lies outside. -/
theorem indicator_sum_zero (k n : Nat) (hk : n ≤ k) :
    ((List.range n).map (fun j => if k == j then 1 else 0)).sum = 0 := by
  apply List.sum_eq_zero
  intro x hx
  simp only [List.mem_map, List.mem_range] at hx
  obtain ⟨j, hj, rfl⟩ := hx
  simp [Nat.ne_of_gt (by omega : j < k)]

/-- The indicator sum over `range n` is one when `k` lies inside. -/
theorem indicator_sum_one (k : Nat) : ∀ n : Nat, k < n →
    ((List.range n).map (fun j => if k == j then 1 else 0)).sum = 1 := by
  intro n
  induction n with
  | zero => omega
  | succ m ih =>
    intro hk
    rw [List.range_succ, List.map_append, List.sum_append]
    by_cases h : k < m
    · rw [ih h]
      simp [Nat.ne_of_lt h]
    · have hkm : k = m := by omega
      subst hkm
      rw [indicator_sum_zero k k le_rfl]
      simp

/-- Partitioning a list by a `Nat`-valued class function bounded by `n`:
the per-class counts sum to the list's length. -/
theorem countP_class_sum {α : Type} (f : α → Nat) (n : Nat)
    (hf : ∀ x, f x < n) (xs : List α) :
    ((List.range n).map (fun j => xs.countP (fun x => f x == j))).sum
      = xs.length := by
  induction xs with
  | nil => simp
  | cons a t ih =>
    simp only [List.countP_cons]
    rw [List.sum_map_add, ih, indicator_sum_one (f a) n (hf a)]
    simp

/-- Indexing the mapped range list evaluates the mapped function. -/
theorem getD_map_range (f : Nat → ℚ) (n i : Nat) (hi : i < n) :
    ((List.range n).map f).getD i 0 = f i := by
  rw [List.getD_eq_getElem _ _ (by simpa using hi)]
  simp

/-- Every bin index is below the fixed bin count. -/
theorem binIdx_lt (lo hi x : ℚ) : binIdx lo hi x < histogramBinCount := by
  simp only [histogramBinCount, binIdx]
  exact Nat.lt_succ_of_le (Nat.min_le_left 9 _)

/-- C6: a numerical baseline entry (which carries count, mean, std, min,
max, median, the 25/75/90/95 percentiles and missing count by
construction) persists a histogram of exactly 10 equal-width bins with 11
bin edges spanning the observed min and max, whose counts partition the
non-missing values; missing values are counted separately. -/
theorem numerical_baseline_shape (sqrtFn : ℚ → ℚ) (raw : List (Option ℚ))
    (h : raw.filterMap id ≠ []) :
    (buildNumericalStats sqrtFn raw).histogram.counts.length = histogramBinCount ∧
    (buildNumericalStats sqrtFn raw).histogram.bin_edges.length
      = histogramBinCount + 1 ∧
    (buildNumericalStats sqrtFn raw).histogram.bin_edges.getD 0 0
      = (buildNumericalStats sqrtFn raw).min ∧
    (buildNumericalStats sqrtFn raw).histogram.bin_edges.getD 10 0
      = (buildNumericalStats sqrtFn raw).max ∧
    (∀ i < histogramBinCount,
      (buildNumericalStats sqrtFn raw).histogram.bin_edges.getD (i + 1) 0
          - (buildNumericalStats sqrtFn raw).histogram.bin_edges.getD i 0
        = ((buildNumericalStats sqrtFn raw).max
            - (buildNumericalStats sqrtFn raw).min) / 10) ∧
    ((buildNumericalStats sqrtFn raw).histogram.counts.sum
      = (buildNumericalStats sqrtFn raw).count) ∧
    (buildNumericalStats sqrtFn raw).count
        + (buildNumericalStats sqrtFn raw).missing_count
      = raw.length := by
  have h10 : (10 : ℚ) ≠ 0 := by norm_num
  refine ⟨?_, ?_, ?_, ?_, ?_, ?_, ?_⟩
  · simp only [buildNumericalStats, buildHistogram, List.length_map,
      List.length_range]
  · simp only [buildNumericalStats, buildHistogram, List.length_map,
      List.length_range]
  · simp only [buildNumericalStats, buildHistogram, histogramBinCount]
    rw [getD_map_range _ 11 0 (by omega)]
    push_cast
    ring
  · simp only [buildNumericalStats, buildHistogram, histogramBinCount]
    rw [getD_map_range _ 11 10 (by omega)]
    push_cast
    field_simp
  · intro i hi
    simp only [buildNumericalStats, buildHistogram, histogramBinCount] at hi ⊢
    rw [getD_map_range _ 11 (i + 1) (by omega), getD_map_range _ 11 i (by omega)]
    push_cast
    field_simp
    ring
  · simp only [buildNumericalStats, buildHistogram]
    exact countP_class_sum _ _ (fun x => binIdx_lt _ _ x) _
  · simp only [buildNumericalStats]
    have hle := List.length_filterMap_le id raw
    omega

/-- Witness for `numerical_baseline_shape` on a concrete raw column with
one missing value. -/
theorem numerical_baseline_shape_check :
    (buildNumericalStats id [some 1, Option.none, some 3, some 2]).histogram.counts.length
      = histogramBinCount ∧
    (buildNumericalStats id [some 1, Option.none, some 3, some 2]).histogram.bin_edges.length
      = histogramBinCount + 1 ∧
    (buildNumericalStats id [some 1, Option.none, some 3, some 2]).histogram.bin_edges.getD 0 0
      = (buildNumericalStats id [some 1, Option.none, some 3, some 2]).min ∧
    (buildNumericalStats id [some 1, Option.none, some 3, some 2]).histogram.bin_edges.getD 10 0
      = (buildNumericalStats id [some 1, Option.none, some 3, some 2]).max ∧
    (∀ i < histogramBinCount,
      (buildNumericalStats id [some 1, Option.none, some 3, some 2]).histogram.bin_edges.getD (i + 1) 0
          - (buildNumericalStats id [some 1, Option.none, some 3, some 2]).histogram.bin_edges.getD i 0
        = ((buildNumericalStats id [some 1, Option.none, some 3, some 2]).max
            - (buildNumericalStats id [some 1, Option.none, some 3, some 2]).min) / 10) ∧
    ((buildNumericalStats id [some 1, Option.none, some 3, some 2]).histogram.counts.sum
      = (buildNumericalStats id [some 1, Option.none, some 3, some 2]).count) ∧
    (buildNumericalStats id [some 1, Option.none, some 3, some 2]).count
        + (buildNumericalStats id [some 1, Option.none, some 3, some 2]).missing_count
      = [some (1 : ℚ), Option.none, some 3, some 2].length :=
  numerical_baseline_shape id [some 1, Option.none, some 3, some 2] (by simp)

/-! ## C7: log status values and append-only store -/

/-- C7: an inference-log entry's status is one of exactly `success`,
`error`, `timeout`; and appending to the log store never mutates an
existing entry — every previously stored entry is unchanged. -/
theorem inferenceLog_status_and_append (st : LogStatus)
    (store : List InferenceLog) (entry : InferenceLog) (i : Nat)
    (h : i < store.length) :
    (st = .success ∨ st = .error ∨ st = .timeout) ∧
    (appendLog store entry).getD i entry = store.getD i entry ∧
    (appendLog store entry).length = store.length + 1 := by
  refine ⟨by cases st <;> simp, ?_, by simp [appendLog]⟩
  exact List.getD_append _ _ _ _ h

/-- Witness for `inferenceLog_status_and_append` on a one-entry store. -/
theorem inferenceLog_status_and_append_check :
    (LogStatus.timeout = .success ∨ LogStatus.timeout = .error ∨
      LogStatus.timeout = .timeout) ∧
    (appendLog [sampleLog] sampleLog).getD 0 sampleLog = [sampleLog].getD 0 sampleLog ∧
    (appendLog [sampleLog] sampleLog).length = [sampleLog].length + 1 :=
  inferenceLog_status_and_append .timeout [sampleLog] sampleLog 0 (by decide)

end Modelic
